import Mathlib

/-!
# A verification development for the `scale-encode` type-directed encoder

This file embeds the core of the `scale-encode` repository in Lean 4:
the type-descriptor data model, the shape normalizer
(`find_single_entry_with_same_repr`), the composite field-reconciliation
engine (`encode_fields_to` / `Composite::encode_as_type_to`), the variant
encoder (`Variant::encode_variant_as_type_to`), the integer encoder
(`impl_encode_number`) and the sequence encoder
(`encode_iterable_sequence_to`), together with the error model.

Conventions used throughout the embedding:
* byte buffers are `List Nat` (each entry a byte value);
* a type registry (`TypeResolver`) is a partial function from type ids
  to type definitions, mirroring `resolve(type_id) -> Option<TypeDescriptor>`;
* the `&mut Vec<u8>` output parameter becomes explicit buffer passing:
  every encode function returns the result together with the buffer as it
  stands when the function returns (also on error, as in Rust);
* trait objects (`&dyn EncodeAsType`) become explicit encoding functions
  (`SubEnc`), because the engines are parametric in how the individual
  source values encode themselves;
* the unbounded type-registry recursion of the source (which assumes an
  acyclic registry) is modelled with an explicit fuel parameter.
-/

namespace ScaleEncode

/-- Opaque type identifier: a handle into the type registry. -/
abbrev TypeId := Nat

/-- Primitive kinds, as in `scale_type_resolver::Primitive` /
`scale_info::TypeDefPrimitive`. -/
inductive Prim where
  | bool | char | str
  | u8 | u16 | u32 | u64 | u128 | u256
  | i8 | i16 | i32 | i64 | i128 | i256
deriving DecidableEq, Repr

/-- A field descriptor of a composite/variant target type: an optional
name and the type id of the field's value. -/
structure Field where
  name : Option String
  ty : TypeId
deriving DecidableEq, Repr

/-- A variant descriptor: name, declared index (a `u8` in the source)
and field descriptors. -/
structure VariantDef where
  name : String
  index : Nat
  fields : List Field
deriving DecidableEq, Repr

/-- The resolved shape of a type id, as classified by the resolver. -/
inductive TypeDef where
  | primitive (p : Prim)
  | compact (inner : TypeId)
  | tuple (fields : List TypeId)
  | array (ty : TypeId) (len : Nat)
  | sequence (ty : TypeId)
  | composite (fields : List Field)
  | variant (variants : List VariantDef)
  | bitSequence
deriving DecidableEq, Repr

/-- The type resolver: `resolve(type_id) -> Option<TypeDescriptor>`. -/
abbrev Resolver := TypeId → Option TypeDef

/-- The kind of value being encoded (`error::Kind`). -/
inductive Kind where
  | struct | tuple | variant | array | bitSeq | bool | char | str | number
deriving DecidableEq, Repr

/-- One location in an error path (`error::context::Location`).
Modelled from the spec: the `error/context.rs` module is not part of the
sources; the spec describes a Location as "either a numeric index or a
field/variant name". -/
inductive Location where
  | idx (i : Nat)
  | fieldName (s : String)
  | variantName (s : String)
deriving DecidableEq, Repr

/-- The error taxonomy (`error::ErrorKind`).  In the source some payloads
are strings produced with `format!` / `to_string`; the embedding keeps the
underlying data (type ids as `TypeId`, numbers as `Int`). -/
inductive ErrorKind where
  | typeResolvingError
  | typeNotFound (id : TypeId)
  | wrongShape (actual : Kind) (expectedId : TypeId)
  | wrongLength (actualLen : Nat) (expectedLen : Nat)
  | numberOutOfRange (value : Int) (expectedId : TypeId)
  | cannotFindVariant (name : String) (expectedId : TypeId)
  | cannotFindField (name : String)
deriving DecidableEq, Repr

/-- An error: an `ErrorKind` plus the accumulated context path
(`error::Error`). `Error::new` starts with an empty context. -/
structure Error where
  context : List Location
  kind : ErrorKind
deriving DecidableEq, Repr

/-- `Error::new(kind)`: construct an error with an empty context. -/
def Error.new (kind : ErrorKind) : Error := ⟨[], kind⟩

/-- `Error::at(loc)`: push one location onto the context. -/
def Error.at (e : Error) (loc : Location) : Error :=
  ⟨e.context ++ [loc], e.kind⟩

/-- `Error::at_idx(idx)`. -/
def Error.atIdx (e : Error) (i : Nat) : Error := e.at (Location.idx i)

/-- `Error::at_field(name)`. -/
def Error.atField (e : Error) (s : String) : Error := e.at (Location.fieldName s)

/-- A byte buffer (`Vec<u8>`). -/
abbrev Buf := List Nat

/-- The result of an `encode_*_to` call: the `Result<(), Error>` return
value together with the output buffer as left by the call (the Rust code
threads `out: &mut Vec<u8>`, which keeps whatever was appended even when
the call errors). -/
abbrev EncRes := Except Error Unit × Buf

/-- The encoding behaviour of one source value: what `&dyn EncodeAsType`
provides — given a target type id and the current output buffer, either
succeed or fail, returning the updated buffer. -/
abbrev SubEnc := TypeId → Buf → EncRes

/-- One source entry of a composite: an optional field name together with
the value's encoding behaviour (`(Option<&'static str>, T: EncodeAsType)`). -/
structure SrcEntry where
  name : Option String
  enc : SubEnc

/-! ## Byte formats: little-endian integers and compact integers -/

/-- `k` little-endian bytes of `n` (the fixed-width integer format). -/
def leBytes : Nat → Nat → List Nat
  | 0, _ => []
  | k + 1, n => n % 256 :: leBytes k (n / 256)

/-- Minimal number of bytes needed to represent `n`. -/
def minBytes (n : Nat) : Nat :=
  if n = 0 then 0 else minBytes (n / 256) + 1
decreasing_by exact Nat.div_lt_self (Nat.pos_of_ne_zero (by assumption)) (by omega)

/-- The SCALE compact integer encoding of an unsigned value `n`
(four magnitude tiers). -/
def compactBytes (n : Nat) : List Nat :=
  if n < 64 then [n * 4]
  else if n < 16384 then leBytes 2 (n * 4 + 1)
  else if n < 1073741824 then leBytes 4 (n * 4 + 2)
  else ((minBytes n - 4) * 4 + 3) :: leBytes (minBytes n) n

/-! ## The shape normalizer: `find_single_entry_with_same_repr`

The current implementation (`src/scale-encode/src/impls/mod.rs`) unwraps
a tuple with exactly one member and a composite with exactly one field,
recursing on the inner type id; any other shape — and a failed resolution —
returns the input id unchanged.  The earlier implementation in
`src/src/impls.rs` additionally unwraps an array of length exactly one.
Both are embedded, with fuel bounding the registry recursion. -/

/-- Current normalizer (`impls/mod.rs`): unwraps single-member tuples and
single-field composites only. -/
def findSingleEntryWithSameRepr (R : Resolver) : Nat → TypeId → TypeId
  | 0, tid => tid
  | fuel + 1, tid =>
    match R tid with
    | some (.tuple [t]) => findSingleEntryWithSameRepr R fuel t
    | some (.composite [f]) => findSingleEntryWithSameRepr R fuel f.ty
    | _ => tid

/-- Earlier normalizer (`src/src/impls.rs`): additionally unwraps
`[T; 1]` arrays. -/
def findSingleEntryWithSameReprOld (R : Resolver) : Nat → TypeId → TypeId
  | 0, tid => tid
  | fuel + 1, tid =>
    match R tid with
    | some (.tuple [t]) => findSingleEntryWithSameReprOld R fuel t
    | some (.composite [f]) => findSingleEntryWithSameReprOld R fuel f.ty
    | some (.array t 1) => findSingleEntryWithSameReprOld R fuel t
    | _ => tid

/-- One unwrap step of the current normalizer: the single inner type id,
if the shape is a one-member tuple or one-field composite. -/
def unwrapStep (R : Resolver) (tid : TypeId) : Option TypeId :=
  match R tid with
  | some (.tuple [t]) => some t
  | some (.composite [f]) => some f.ty
  | _ => none

/-! ## The composite field-reconciliation engine

`EncodeFieldsAsType::encode_fields_to` in
`src/scale-encode/src/impls/composite.rs`:  given the source entries and
the target's field descriptors, decide between named and positional
matching and encode accordingly. -/

/-- The key a target field is matched under during named matching:
its name, or the empty string when it has none
(`field.name().map(|n| &**n).unwrap_or("")`). -/
def fieldKey (f : Field) : String := f.name.getD ""

/-- The key a source entry is inserted under in the name map
(`$name.0.unwrap_or("")`). -/
def entryKey (e : SrcEntry) : String := e.name.getD ""

/-- The source name map lookup.  The source inserts every entry into a
`HashMap` in source order, so a later entry with the same key overwrites
an earlier one; `get` therefore finds the last entry with the key. -/
def lookupSource (entries : List SrcEntry) (key : String) : Option SrcEntry :=
  entries.reverse.find? (fun e => entryKey e == key)

/-- The named-matching loop: for each target field in target field order,
look its key up in the source map (absence is `CannotFindField`), encode
the matched value against the field's type id, and tag a failure of that
encode with the field name. -/
def encodeFieldsNamedLoop (entries : List SrcEntry) :
    List Field → Buf → EncRes
  | [], out => (Except.ok (), out)
  | f :: fs, out =>
    let name := fieldKey f
    match lookupSource entries name with
    | none => (Except.error (Error.new (.cannotFindField name)), out)
    | some e =>
      match e.enc f.ty out with
      | (Except.ok _, out') => encodeFieldsNamedLoop entries fs out'
      | (Except.error err, out') => (Except.error (err.atField name), out')

/-- The named branch of `encode_fields_to`. -/
def encodeFieldsNamed (entries : List SrcEntry) (fields : List Field)
    (out : Buf) : EncRes :=
  encodeFieldsNamedLoop entries fields out

/-- The positional loop shared by the positional branch and the
tuple/array/sequence arms of `Composite::encode_as_type_to`: encode the
source entries pairwise against the given target type ids, tagging a
failure with the source entry's name when it has one, else with its
positional index. -/
def encodePositionalLoop : Nat → List (SrcEntry × TypeId) → Buf → EncRes
  | _, [], out => (Except.ok (), out)
  | idx, (e, ty) :: rest, out =>
    let loc := match e.name with
      | some n => Location.fieldName n
      | none => Location.idx idx
    match e.enc ty out with
    | (Except.ok _, out') => encodePositionalLoop (idx + 1) rest out'
    | (Except.error err, out') => (Except.error (err.at loc), out')

/-- The positional branch of `encode_fields_to`: the source entry count
must equal the target field count (`WrongLength` otherwise), then the
entries are encoded pairwise against the field type ids. -/
def encodeFieldsPositional (entries : List SrcEntry) (fields : List Field)
    (out : Buf) : EncRes :=
  if fields.length ≠ entries.length then
    (Except.error (Error.new (.wrongLength entries.length fields.length)), out)
  else
    encodePositionalLoop 0 (entries.zip (fields.map Field.ty)) out

/-- `encode_fields_to`: named matching is used only when both the target
field descriptors and the source entries contain at least one name;
otherwise positional matching is used.  The `type_id` parameter is kept
from the source signature (it fed the `expected` payload of an older
`WrongLength` error shape that the current error model no longer has). -/
def encodeFieldsTo (entries : List SrcEntry) (fields : List Field)
    (_tid : TypeId) (out : Buf) : EncRes :=
  let isTargetNamed := fields.any fun f => f.name.isSome
  let isSourceNamed := entries.any fun e => e.name.isSome
  if isTargetNamed && isSourceNamed then
    encodeFieldsNamed entries fields out
  else
    encodeFieldsPositional entries fields out

/-- The fallback arm of `Composite::encode_as_type_to`: with exactly one
source entry, retry by encoding that entry's value directly against the
(un-normalized) target type id, tagging a failure with index 0; with any
other arity, `WrongShape(Tuple)`. -/
def encodeCompositeFallback (entries : List SrcEntry) (tid : TypeId)
    (out : Buf) : EncRes :=
  match entries with
  | [e] =>
    match e.enc tid out with
    | (Except.ok _, out') => (Except.ok (), out')
    | (Except.error err, out') => (Except.error (err.atIdx 0), out')
  | _ => (Except.error (Error.new (.wrongShape .tuple tid)), out)

/-- `Composite::encode_as_type_to`: resolve the target and dispatch on
its shape.  Tuple/array targets require matching arity, sequences get a
compact length prefix, composite targets of matching arity go through
`encode_fields_to`, and anything else falls back to the single-entry
retry. -/
def encodeCompositeTo (R : Resolver) (entries : List SrcEntry)
    (tid : TypeId) (out : Buf) : EncRes :=
  match R tid with
  | none => (Except.error (Error.new (.typeNotFound tid)), out)
  | some td =>
    match td with
    | .tuple ts =>
      if ts.length = entries.length then
        encodePositionalLoop 0 (entries.zip ts) out
      else
        encodeCompositeFallback entries tid out
    | .array t len =>
      if len = entries.length then
        encodePositionalLoop 0 (entries.zip (entries.map fun _ => t)) out
      else
        encodeCompositeFallback entries tid out
    | .sequence t =>
      encodePositionalLoop 0 (entries.zip (entries.map fun _ => t))
        (out ++ compactBytes (entries.length % 2 ^ 32))
    | .composite fields =>
      if fields.length = entries.length then
        encodeFieldsTo entries fields tid out
      else
        encodeCompositeFallback entries tid out
    | _ => encodeCompositeFallback entries tid out

/-! ## The variant encoder: `Variant::encode_variant_as_type_to` -/

/-- `Variant::encode_variant_as_type_to`: normalize the target, require a
variant shape (`WrongShape(Str)` otherwise, which is also what an
unresolvable id produces here since the visitor installs no not-found
handler), linearly scan for the first variant whose name equals the input
name (`CannotFindVariant` when none does), emit the variant's declared
index byte, then delegate the fields to the composite field engine
against the matched variant's field descriptors. -/
def encodeVariantTo (R : Resolver) (fuel : Nat) (name : String)
    (entries : List SrcEntry) (tid : TypeId) (out : Buf) : EncRes :=
  let tid' := findSingleEntryWithSameRepr R fuel tid
  match R tid' with
  | some (.variant vars) =>
    match vars.find? (fun v => v.name == name) with
    | none => (Except.error (Error.new (.cannotFindVariant name tid')), out)
    | some v => encodeFieldsTo entries v.fields tid' (out ++ leBytes 1 v.index)
  | _ => (Except.error (Error.new (.wrongShape .str tid')), out)

/-! ## The integer encoder: `impl_encode_number` -/

/-- The numeric primitive kinds accepted by the outer `visit_primitive`
match of `impl_encode_number`: signedness and byte width, `none` for
every other primitive (including `U256`/`I256`, which fall to the
wrong-shape arm). -/
def numWidth : Prim → Option (Bool × Nat)
  | .u8 => some (false, 1)
  | .u16 => some (false, 2)
  | .u32 => some (false, 4)
  | .u64 => some (false, 8)
  | .u128 => some (false, 16)
  | .i8 => some (true, 1)
  | .i16 => some (true, 2)
  | .i32 => some (true, 4)
  | .i64 => some (true, 8)
  | .i128 => some (true, 16)
  | _ => none

/-- The unsigned primitive kinds accepted inside a compact wrapper
(`u8`/`u16`/`u32`/`u64`/`u128`): byte width, `none` for every other
primitive. -/
def unsignedWidth : Prim → Option Nat
  | .u8 => some 1
  | .u16 => some 2
  | .u32 => some 4
  | .u64 => some 8
  | .u128 => some 16
  | _ => none

/-- Whether the checked narrowing conversion (`TryFrom`) of `v` into a
numeric type of the given signedness and byte width succeeds. -/
def intFits (signed : Bool) (bytes : Nat) (v : Int) : Bool :=
  if signed then
    decide (-(2 ^ (8 * bytes - 1) : Int) ≤ v ∧ v < 2 ^ (8 * bytes - 1))
  else
    decide (0 ≤ v ∧ v < (2 ^ (8 * bytes) : Int))

/-- Fixed-width little-endian encoding of an integer (two's complement
for negative values). -/
def encodeIntLE (bytes : Nat) (v : Int) : List Nat :=
  leBytes bytes (v % (2 ^ (8 * bytes) : Int)).toNat

/-- `impl_encode_number`'s `encode_as_type_to`: normalize the target and
resolve it.  A numeric primitive gets a checked narrowing conversion
(failure is `NumberOutOfRange`); a compact wrapper normalizes and
resolves the inner type, which must be an unsigned primitive (anything
else, a failed inner resolution included, is `WrongShape(Number)`), and
emits the value in compact format; an unresolvable target id is
`TypeNotFound`; any other resolved shape is `WrongShape(Number)`. -/
def encodeNumberTo (R : Resolver) (fuel : Nat) (v : Int) (tid : TypeId)
    (out : Buf) : EncRes :=
  let tid' := findSingleEntryWithSameRepr R fuel tid
  match R tid' with
  | none => (Except.error (Error.new (.typeNotFound tid')), out)
  | some (.primitive p) =>
    match numWidth p with
    | some (sgn, w) =>
      if intFits sgn w v then (Except.ok (), out ++ encodeIntLE w v)
      else (Except.error (Error.new (.numberOutOfRange v tid')), out)
    | none => (Except.error (Error.new (.wrongShape .number tid')), out)
  | some (.compact inner) =>
    let inner' := findSingleEntryWithSameRepr R fuel inner
    match R inner' with
    | some (.primitive p) =>
      match unsignedWidth p with
      | some w =>
        if intFits false w v then (Except.ok (), out ++ compactBytes v.toNat)
        else (Except.error (Error.new (.numberOutOfRange v inner')), out)
      | none => (Except.error (Error.new (.wrongShape .number inner')), out)
    | _ => (Except.error (Error.new (.wrongShape .number inner')), out)
  | some _ => (Except.error (Error.new (.wrongShape .number tid')), out)

/-! ## The sequence encoder: `encode_iterable_sequence_to` -/

/-- The element loop of the sequence encoder: encode each item in
iteration order against the element type id, tagging a failure with the
item's positional index. -/
def encodeItemsLoop (t : TypeId) : Nat → List SubEnc → Buf → EncRes
  | _, [], out => (Except.ok (), out)
  | idx, e :: es, out =>
    match e t out with
    | (Except.ok _, out') => encodeItemsLoop t (idx + 1) es out'
    | (Except.error err, out') => (Except.error (err.atIdx idx), out')

/-- `encode_iterable_sequence_to`: resolve the target.  An array target
requires its fixed length to equal `len` (`WrongLength(len, array-len)`
otherwise) and encodes the items against the element type; a sequence
target first emits the compact-encoded `len` (cast to `u32` in the
source) and then the items; a tuple or composite with exactly one member
recurses one level into that member; anything else — a failed resolution
included, since no not-found handler is installed — is
`WrongShape(Array)`.  Fuel bounds the single-member recursion. -/
def encodeSeqTo (R : Resolver) :
    Nat → Nat → List SubEnc → TypeId → Buf → EncRes
  | fuel, len, items, tid, out =>
    match R tid with
    | some (.array t alen) =>
      if alen = len then encodeItemsLoop t 0 items out
      else (Except.error (Error.new (.wrongLength len alen)), out)
    | some (.sequence t) =>
      encodeItemsLoop t 0 items (out ++ compactBytes (len % 2 ^ 32))
    | some (.tuple ts) =>
      match ts with
      | [t] =>
        match fuel with
        | 0 => (Except.error (Error.new (.wrongShape .array tid)), out)
        | fuel' + 1 => encodeSeqTo R fuel' len items t out
      | _ => (Except.error (Error.new (.wrongShape .array tid)), out)
    | some (.composite fs) =>
      match fs with
      | [f] =>
        match fuel with
        | 0 => (Except.error (Error.new (.wrongShape .array tid)), out)
        | fuel' + 1 => encodeSeqTo R fuel' len items f.ty out
      | _ => (Except.error (Error.new (.wrongShape .array tid)), out)
    | _ => (Except.error (Error.new (.wrongShape .array tid)), out)

/-! ## Helper lemmas -/

/-- A sub-encoder that encodes successfully without writing anything. -/
def subOk : SubEnc := fun _ out => (Except.ok (), out)

/-- A sub-encoder that appends one fixed byte and succeeds. -/
def subByte (b : Nat) : SubEnc := fun _ out => (Except.ok (), out ++ [b])

/-- A sub-encoder that fails without writing anything. -/
def subFail : SubEnc := fun tid out =>
  (Except.error (Error.new (.wrongShape .bool tid)), out)

theorem lookupSource_eq_none_iff (entries : List SrcEntry) (k : String) :
    lookupSource entries k = none ↔ k ∉ entries.map entryKey := by
  unfold lookupSource
  rw [List.find?_eq_none]
  constructor
  · intro h hk
    obtain ⟨e, he, hek⟩ := List.mem_map.mp hk
    exact absurd (by simp [hek]) (h e (List.mem_reverse.mpr he))
  · intro h e he hbe
    exact h (List.mem_map.mpr ⟨e, List.mem_reverse.mp he, by simpa using hbe⟩)

theorem lookupSource_mem {entries : List SrcEntry} {k : String} {e : SrcEntry}
    (h : lookupSource entries k = some e) :
    e ∈ entries ∧ entryKey e = k := by
  unfold lookupSource at h
  refine ⟨List.mem_reverse.mp (List.mem_of_find?_eq_some h), ?_⟩
  simpa using List.find?_some h

/-- A sub-encoder that always succeeds, appending some bytes that may
depend on the target type and current buffer. -/
def AlwaysOk (e : SubEnc) : Prop :=
  ∀ tid out, ∃ s, e tid out = (Except.ok (), out ++ s)

theorem subOk_alwaysOk : AlwaysOk subOk :=
  fun _ out => ⟨[], by simp [subOk]⟩

theorem subByte_alwaysOk (b : Nat) : AlwaysOk (subByte b) :=
  fun _ _ => ⟨[b], rfl⟩

theorem lookupSource_isSome_of_mem {entries : List SrcEntry} {k : String}
    (h : k ∈ entries.map entryKey) :
    ∃ e, lookupSource entries k = some e := by
  cases hlk : lookupSource entries k with
  | none => exact absurd h ((lookupSource_eq_none_iff entries k).mp hlk)
  | some e => exact ⟨e, rfl⟩

theorem namedLoop_ok_iff (entries : List SrcEntry)
    (h : ∀ e ∈ entries, AlwaysOk e.enc) :
    ∀ (fields : List Field) (out : Buf),
      (encodeFieldsNamedLoop entries fields out).1 = Except.ok ()
        ↔ ∀ f ∈ fields, fieldKey f ∈ entries.map entryKey := by
  intro fields
  induction fields with
  | nil => intro out; simp [encodeFieldsNamedLoop]
  | cons f fs ih =>
    intro out
    cases hlk : lookupSource entries (fieldKey f) with
    | none =>
      simp only [encodeFieldsNamedLoop, hlk]
      constructor
      · intro habs; simp at habs
      · intro hall
        exact absurd (hall f (by simp))
          ((lookupSource_eq_none_iff entries (fieldKey f)).mp hlk)
    | some e =>
      obtain ⟨hmem, hkey⟩ := lookupSource_mem hlk
      obtain ⟨s, hs⟩ := h e hmem f.ty out
      have hin : fieldKey f ∈ entries.map entryKey :=
        List.mem_map.mpr ⟨e, hmem, hkey⟩
      simp only [encodeFieldsNamedLoop, hlk, hs]
      rw [ih (out ++ s), List.forall_mem_cons]
      exact (and_iff_right hin).symm

theorem namedLoop_first_missing (entries : List SrcEntry)
    (h : ∀ e ∈ entries, AlwaysOk e.enc) :
    ∀ (pre : List Field) (f : Field) (post : List Field) (out : Buf),
      (∀ g ∈ pre, fieldKey g ∈ entries.map entryKey) →
      fieldKey f ∉ entries.map entryKey →
      ∃ out', encodeFieldsNamedLoop entries (pre ++ f :: post) out
        = (Except.error (Error.new (.cannotFindField (fieldKey f))), out') := by
  intro pre
  induction pre with
  | nil =>
    intro f post out _ hmiss
    have hlk : lookupSource entries (fieldKey f) = none :=
      (lookupSource_eq_none_iff entries (fieldKey f)).mpr hmiss
    exact ⟨out, by simp [encodeFieldsNamedLoop, hlk]⟩
  | cons g gs ih =>
    intro f post out hpre hmiss
    obtain ⟨e, he⟩ := lookupSource_isSome_of_mem (hpre g (by simp))
    obtain ⟨hmem, _⟩ := lookupSource_mem he
    obtain ⟨s, hs⟩ := h e hmem g.ty out
    obtain ⟨out', hout⟩ :=
      ih f post (out ++ s) (fun g' hg' => hpre g' (by simp [hg'])) hmiss
    refine ⟨out', ?_⟩
    simp only [List.cons_append, encodeFieldsNamedLoop, he, hs]
    exact hout

theorem lookupSource_append_ne (entries : List SrcEntry) (x : SrcEntry)
    (k : String) (hk : entryKey x ≠ k) :
    lookupSource (entries ++ [x]) k = lookupSource entries k := by
  unfold lookupSource
  have hrev : (entries ++ [x]).reverse = x :: entries.reverse := by simp
  rw [hrev, List.find?_cons_of_neg _ (by simp [hk])]

theorem namedLoop_extra_entry (entries : List SrcEntry) (x : SrcEntry) :
    ∀ (fields : List Field) (out : Buf),
      entryKey x ∉ fields.map fieldKey →
      encodeFieldsNamedLoop (entries ++ [x]) fields out
        = encodeFieldsNamedLoop entries fields out := by
  intro fields
  induction fields with
  | nil => intro out _; rfl
  | cons f fs ih =>
    intro out hx
    have hne : entryKey x ≠ fieldKey f := fun hc => hx (by simp [hc])
    have hfs : entryKey x ∉ fs.map fieldKey := fun hc => hx (by simp [hc])
    simp only [encodeFieldsNamedLoop,
      lookupSource_append_ne entries x (fieldKey f) hne]
    cases hlk : lookupSource entries (fieldKey f) with
    | none => rfl
    | some e =>
      simp only []
      cases hres : e.enc f.ty out with
      | mk r out' =>
        cases r with
        | ok _ => exact ih out' hfs
        | error err => rfl

/-! ## Claim theorems -/

/-- **C1.** For every composite encode of source entries against a target
composite's field descriptors, named matching is chosen if and only if at
least one target field descriptor carries a name and at least one source
entry carries a name; in every other case positional matching is used,
even if some individual entries carry names. -/
theorem composite_naming_decision (entries : List SrcEntry)
    (fields : List Field) (tid : TypeId) (out : Buf) :
    (((∃ f ∈ fields, f.name.isSome) ∧ (∃ e ∈ entries, e.name.isSome)) →
      encodeFieldsTo entries fields tid out = encodeFieldsNamed entries fields out)
    ∧ (¬((∃ f ∈ fields, f.name.isSome) ∧ (∃ e ∈ entries, e.name.isSome)) →
      encodeFieldsTo entries fields tid out
        = encodeFieldsPositional entries fields out) := by
  have hcond :
      (((fields.any fun f => f.name.isSome)
          && (entries.any fun e => e.name.isSome)) = true)
        ↔ ((∃ f ∈ fields, f.name.isSome) ∧ (∃ e ∈ entries, e.name.isSome)) := by
    simp [List.any_eq_true]
  constructor
  · intro h
    unfold encodeFieldsTo
    rw [if_pos (hcond.mpr h)]
  · intro h
    unfold encodeFieldsTo
    rw [if_neg (fun hc => h (hcond.mp hc))]

/-- Witness for C1: a concrete instance where both sides carry a name, so
named matching is chosen. -/
theorem composite_naming_decision_witness :
    encodeFieldsTo [⟨some "a", subOk⟩] [⟨some "a", 3⟩] 7 []
      = encodeFieldsNamed [⟨some "a", subOk⟩] [⟨some "a", 3⟩] [] :=
  (composite_naming_decision [⟨some "a", subOk⟩] [⟨some "a", 3⟩] 7 []).1
    (by simp)

/-- **C2.** Under named matching the target fields are processed in
target field order, each looked up by key in the map built from the
source entries: when the source values themselves encode successfully,
the encode succeeds exactly when every target field's key occurs among
the source entry keys; the first target field (after a prefix of present
fields) whose key is absent makes the encode fail with
`CannotFindField(name)`; and a source entry whose key is not referenced
by any target field is silently ignored — over-supplying fields changes
nothing. -/
theorem named_matching_fields (entries : List SrcEntry)
    (fields : List Field) (out : Buf)
    (h : ∀ e ∈ entries, AlwaysOk e.enc) :
    ((encodeFieldsNamed entries fields out).1 = Except.ok ()
      ↔ ∀ f ∈ fields, fieldKey f ∈ entries.map entryKey)
    ∧ (∀ (pre : List Field) (f : Field) (post : List Field),
        fields = pre ++ f :: post →
        (∀ g ∈ pre, fieldKey g ∈ entries.map entryKey) →
        fieldKey f ∉ entries.map entryKey →
        ∃ out', encodeFieldsNamed entries fields out
          = (Except.error (Error.new (.cannotFindField (fieldKey f))), out'))
    ∧ (∀ x : SrcEntry, entryKey x ∉ fields.map fieldKey →
        encodeFieldsNamed (entries ++ [x]) fields out
          = encodeFieldsNamed entries fields out) := by
  refine ⟨namedLoop_ok_iff entries h fields out, ?_, ?_⟩
  · intro pre f post hsplit hpre hmiss
    subst hsplit
    exact namedLoop_first_missing entries h pre f post out hpre hmiss
  · intro x hx
    exact namedLoop_extra_entry entries x fields out hx

/-- Witness for C2: a two-entry source (one entry over-supplied) against
a one-field target; the target key is present, so the encode succeeds. -/
theorem named_matching_fields_witness :
    (encodeFieldsNamed [⟨some "b", subByte 9⟩, ⟨some "a", subByte 7⟩]
      [⟨some "a", 3⟩] []).1 = Except.ok () :=
  (named_matching_fields [⟨some "b", subByte 9⟩, ⟨some "a", subByte 7⟩]
    [⟨some "a", 3⟩] []
    (by
      intro e he
      rcases List.mem_cons.mp he with rfl | he
      · exact subByte_alwaysOk 9
      rcases List.mem_cons.mp he with rfl | he
      · exact subByte_alwaysOk 7
      · cases he)).1.mpr
    (by
      intro f hf
      rcases List.mem_cons.mp hf with rfl | hf
      · simp [fieldKey, entryKey]
      · cases hf)

/-- The observable failure kind of an encode result (the error's kind,
ignoring its context path). -/
def errKind (r : EncRes) : Option ErrorKind :=
  match r.1 with
  | .ok _ => none
  | .error e => some e.kind

theorem posLoop_names_irrelevant :
    ∀ (ps ps' : List (SrcEntry × TypeId)) (idx idx' : Nat) (out : Buf),
      ps'.map (fun q => (q.1.enc, q.2)) = ps.map (fun q => (q.1.enc, q.2)) →
      ((encodePositionalLoop idx' ps' out).2
          = (encodePositionalLoop idx ps out).2
        ∧ ((encodePositionalLoop idx' ps' out).1 = Except.ok ()
            ↔ (encodePositionalLoop idx ps out).1 = Except.ok ())
        ∧ errKind (encodePositionalLoop idx' ps' out)
            = errKind (encodePositionalLoop idx ps out)) := by
  intro ps
  induction ps with
  | nil =>
    intro ps' idx idx' out hmap
    have : ps' = [] := by simpa using hmap
    subst this
    simp [encodePositionalLoop]
  | cons p rest ih =>
    intro ps' idx idx' out hmap
    cases ps' with
    | nil => simp at hmap
    | cons p' rest' =>
      simp only [List.map_cons, List.cons.injEq, Prod.mk.injEq] at hmap
      obtain ⟨⟨henc, hty⟩, htl⟩ := hmap
      simp only [encodePositionalLoop, henc, hty]
      cases hres : p.1.enc p.2 out with
      | mk r out₂ =>
        cases r with
        | ok _ => exact ih rest' (idx + 1) (idx' + 1) out₂ htl
        | error err => simp [errKind, Error.at]

theorem zip_enc_map (entries : List SrcEntry) :
    ∀ (entries' : List SrcEntry) (tys : List TypeId),
      entries'.map SrcEntry.enc = entries.map SrcEntry.enc →
      (entries'.zip tys).map (fun q => (q.1.enc, q.2))
        = (entries.zip tys).map (fun q => (q.1.enc, q.2)) := by
  induction entries with
  | nil =>
    intro entries' tys h
    have : entries' = [] := by simpa using h
    subst this; rfl
  | cons e rest ih =>
    intro entries' tys h
    cases entries' with
    | nil => simp at h
    | cons e' rest' =>
      simp only [List.map_cons, List.cons.injEq] at h
      obtain ⟨henc, htl⟩ := h
      cases tys with
      | nil => rfl
      | cons t ts => simp [List.zip_cons_cons, henc, ih rest' ts htl]

/-- **C3.** Under positional matching, a composite encode whose source
entry count differs from the target field count fails with
`WrongLength(source length, target length)`; when the counts are equal
the source values are encoded pairwise by position against the target
field type ids, and the source names play no role in the matching: two
sources with the same value encoders but different names produce the same
bytes, the same success/failure, and the same error kind. -/
theorem positional_matching (entries entries' : List SrcEntry)
    (fields : List Field) (out : Buf) :
    (entries.length ≠ fields.length →
      encodeFieldsPositional entries fields out
        = (Except.error
            (Error.new (.wrongLength entries.length fields.length)), out))
    ∧ (entries.length = fields.length →
      encodeFieldsPositional entries fields out
        = encodePositionalLoop 0 (entries.zip (fields.map Field.ty)) out)
    ∧ (entries.length = fields.length →
      entries'.map SrcEntry.enc = entries.map SrcEntry.enc →
      ((encodeFieldsPositional entries' fields out).2
          = (encodeFieldsPositional entries fields out).2
        ∧ ((encodeFieldsPositional entries' fields out).1 = Except.ok ()
            ↔ (encodeFieldsPositional entries fields out).1 = Except.ok ())
        ∧ errKind (encodeFieldsPositional entries' fields out)
            = errKind (encodeFieldsPositional entries fields out))) := by
  refine ⟨?_, ?_, ?_⟩
  · intro hne
    unfold encodeFieldsPositional
    rw [if_pos (Ne.symm hne)]
  · intro heq
    unfold encodeFieldsPositional
    rw [if_neg (by omega)]
  · intro heq hmap
    have hlen' : entries'.length = entries.length := by
      have := congrArg List.length hmap
      simpa using this
    unfold encodeFieldsPositional
    rw [if_neg (by omega), if_neg (by omega)]
    exact posLoop_names_irrelevant (entries.zip (fields.map Field.ty))
      (entries'.zip (fields.map Field.ty)) 0 0 out
      (zip_enc_map entries entries' (fields.map Field.ty) hmap)

/-- Witness for C3: one source entry against an empty target field list
fails with `WrongLength(1, 0)`. -/
theorem positional_matching_witness :
    encodeFieldsPositional [⟨none, subOk⟩] [] []
      = (Except.error (Error.new (.wrongLength 1 0)), []) :=
  (positional_matching [⟨none, subOk⟩] [⟨none, subOk⟩] [] []).1 (by simp)

theorem find?_first {α : Type} (p : α → Bool) :
    ∀ (pre : List α) (v : α) (post : List α),
      (∀ u ∈ pre, ¬p u) → p v →
      List.find? p (pre ++ v :: post) = some v := by
  intro pre
  induction pre with
  | nil => intro v post _ hv; simp [List.find?_cons, hv]
  | cons u us ih =>
    intro v post hpre hv
    rw [List.cons_append, List.find?_cons_of_neg _ (hpre u (by simp))]
    exact ih v post (fun w hw => hpre w (by simp [hw])) hv

/-- **C4.** A variant encode against a target that (after normalization)
resolves to a Variant shape selects the first variant in the target's
declared list whose name is exactly equal to the input name; if no
variant name matches, it fails with `CannotFindVariant(name, target id)`;
on a match, the variant's declared index byte is emitted to the output
first and the fields are then encoded by the composite field engine
against that variant's field descriptors. -/
theorem variant_encoding (R : Resolver) (fuel : Nat) (name : String)
    (entries : List SrcEntry) (tid : TypeId) (out : Buf)
    (vars : List VariantDef)
    (hres : R (findSingleEntryWithSameRepr R fuel tid)
      = some (.variant vars)) :
    ((∀ u ∈ vars, u.name ≠ name) →
      encodeVariantTo R fuel name entries tid out
        = (Except.error (Error.new (.cannotFindVariant name
            (findSingleEntryWithSameRepr R fuel tid))), out))
    ∧ (∀ (pre : List VariantDef) (v : VariantDef) (post : List VariantDef),
        vars = pre ++ v :: post →
        (∀ u ∈ pre, u.name ≠ name) →
        v.name = name →
        encodeVariantTo R fuel name entries tid out
          = encodeFieldsTo entries v.fields
              (findSingleEntryWithSameRepr R fuel tid)
              (out ++ leBytes 1 v.index)) := by
  constructor
  · intro hnone
    have hfind : vars.find? (fun v => v.name == name) = none :=
      List.find?_eq_none.mpr (fun u hu => by simpa using hnone u hu)
    simp only [encodeVariantTo, hres, hfind]
  · intro pre v post hsplit hpre hv
    have hfind : vars.find? (fun v => v.name == name) = some v := by
      subst hsplit
      exact find?_first _ pre v post
        (fun u hu => by simpa using hpre u hu) (by simpa using hv)
    simp only [encodeVariantTo, hres, hfind]

/-- A registry for the C4 witness: type 0 is a variant type whose
variant list declares "Something" second, with index 5 and a single
unnamed `u8` field. -/
def R4 : Resolver := fun t =>
  if t = 0 then
    some (.variant [⟨"A", 0, []⟩, ⟨"Something", 5, [⟨none, 1⟩]⟩])
  else if t = 1 then some (.primitive .u8) else none

/-- Witness for C4: encoding variant "Something" against `R4` emits the
declared index byte 5 (not the position of "Something" in any source
enum) and then delegates the fields. -/
theorem variant_encoding_witness :
    encodeVariantTo R4 3 "Something" [⟨none, subByte 123⟩] 0 []
      = encodeFieldsTo [⟨none, subByte 123⟩] [⟨none, 1⟩] 0 ([] ++ leBytes 1 5) :=
  (variant_encoding R4 3 "Something" [⟨none, subByte 123⟩] 0 []
      [⟨"A", 0, []⟩, ⟨"Something", 5, [⟨none, 1⟩]⟩] rfl).2
    [⟨"A", 0, []⟩] ⟨"Something", 5, [⟨none, 1⟩]⟩ [] rfl
    (by intro u hu; rcases List.mem_cons.mp hu with rfl | hu
        · decide
        · cases hu)
    rfl

/-- **C5.** For every integer encode: a (normalized) target resolving to
a numeric Primitive kind gets a checked narrowing conversion to that
exact width/signedness, a failed conversion yielding
`NumberOutOfRange(value, target id)`; a target resolving to a Compact
wrapper normalizes and resolves its inner type, which must be an
unsigned Primitive kind (a signed primitive, a non-numeric primitive, a
non-primitive shape, and even an unresolvable inner id, all yield
`WrongShape`), the value being checked-narrowed and emitted in compact
format; and a target id that does not resolve at all yields
`TypeNotFound`, which is a different error kind from `WrongShape`. -/
theorem number_encoding (R : Resolver) (fuel : Nat) (v : Int)
    (tid : TypeId) (out : Buf) :
    (∀ p sgn w, R (findSingleEntryWithSameRepr R fuel tid)
        = some (.primitive p) →
      numWidth p = some (sgn, w) →
      encodeNumberTo R fuel v tid out
        = if intFits sgn w v then (Except.ok (), out ++ encodeIntLE w v)
          else (Except.error (Error.new (.numberOutOfRange v
              (findSingleEntryWithSameRepr R fuel tid))), out))
    ∧ (∀ inner, R (findSingleEntryWithSameRepr R fuel tid)
        = some (.compact inner) →
      ((∀ p w, R (findSingleEntryWithSameRepr R fuel inner)
          = some (.primitive p) →
        unsignedWidth p = some w →
        encodeNumberTo R fuel v tid out
          = if intFits false w v then
              (Except.ok (), out ++ compactBytes v.toNat)
            else (Except.error (Error.new (.numberOutOfRange v
                (findSingleEntryWithSameRepr R fuel inner))), out))
      ∧ (∀ p, R (findSingleEntryWithSameRepr R fuel inner)
          = some (.primitive p) →
        unsignedWidth p = none →
        encodeNumberTo R fuel v tid out
          = (Except.error (Error.new (.wrongShape .number
              (findSingleEntryWithSameRepr R fuel inner))), out))
      ∧ (∀ td, R (findSingleEntryWithSameRepr R fuel inner) = some td →
        (∀ p, td ≠ .primitive p) →
        encodeNumberTo R fuel v tid out
          = (Except.error (Error.new (.wrongShape .number
              (findSingleEntryWithSameRepr R fuel inner))), out))
      ∧ (R (findSingleEntryWithSameRepr R fuel inner) = none →
        encodeNumberTo R fuel v tid out
          = (Except.error (Error.new (.wrongShape .number
              (findSingleEntryWithSameRepr R fuel inner))), out))))
    ∧ (R (findSingleEntryWithSameRepr R fuel tid) = none →
      encodeNumberTo R fuel v tid out
        = (Except.error (Error.new (.typeNotFound
            (findSingleEntryWithSameRepr R fuel tid))), out)
      ∧ ∀ k i, ErrorKind.typeNotFound (findSingleEntryWithSameRepr R fuel tid)
          ≠ ErrorKind.wrongShape k i) := by
  refine ⟨?_, ?_, ?_⟩
  · intro p sgn w hres hw
    simp only [encodeNumberTo, hres, hw]
  · intro inner hres
    refine ⟨?_, ?_, ?_, ?_⟩
    · intro p w hinner hw
      simp only [encodeNumberTo, hres, hinner, hw]
    · intro p hinner hw
      simp only [encodeNumberTo, hres, hinner, hw]
    · intro td hinner hp
      cases td with
      | primitive p => exact absurd rfl (hp p)
      | compact i => simp only [encodeNumberTo, hres, hinner]
      | tuple ts => simp only [encodeNumberTo, hres, hinner]
      | array t l => simp only [encodeNumberTo, hres, hinner]
      | sequence t => simp only [encodeNumberTo, hres, hinner]
      | composite fs => simp only [encodeNumberTo, hres, hinner]
      | variant vs => simp only [encodeNumberTo, hres, hinner]
      | bitSequence => simp only [encodeNumberTo, hres, hinner]
    · intro hinner
      simp only [encodeNumberTo, hres, hinner]
  · intro hres
    refine ⟨by simp only [encodeNumberTo, hres], ?_⟩
    intro k i h
    cases h

/-- A registry for the C5 witness: type 0 is the primitive `u8`. -/
def Rnum : Resolver := fun t => if t = 0 then some (.primitive .u8) else none

/-- Witness for C5: encoding 1234 to a `u8` target fails the checked
narrowing with `NumberOutOfRange(1234, u8-id)`. -/
theorem number_encoding_witness :
    encodeNumberTo Rnum 2 1234 0 []
      = (Except.error (Error.new (.numberOutOfRange 1234 0)), []) := by
  rw [(number_encoding Rnum 2 1234 0 []).1 .u8 false 1 rfl rfl]
  rfl

/-- The resolved shapes that fall to the `WrongShape(Array)` arm of the
sequence encoder: everything except arrays, sequences and single-member
tuples/composites. -/
def seqOtherShape : TypeDef → Prop
  | .array _ _ => False
  | .sequence _ => False
  | .tuple [_] => False
  | .composite [_] => False
  | _ => True

/-- **C6.** A sequence encode of `n` values against an
`Array(elem, fixed-len)` target fails with `WrongLength(n, fixed-len)`
unless `fixed-len == n`, and otherwise encodes each element in iteration
order against `elem`, tagging element failures with their positional
index; against a `Sequence(elem)` target it emits the compact-encoded
length first and then the elements the same way; against a single-member
Tuple or Composite it recurses one level into the member; and against
any other shape it fails with `WrongShape(Array, target id)`. -/
theorem sequence_encoding (R : Resolver) (fuel len : Nat)
    (items : List SubEnc) (tid : TypeId) (out : Buf) :
    (∀ t alen, R tid = some (.array t alen) → alen ≠ len →
      encodeSeqTo R fuel len items tid out
        = (Except.error (Error.new (.wrongLength len alen)), out))
    ∧ (∀ t, R tid = some (.array t len) →
      encodeSeqTo R fuel len items tid out = encodeItemsLoop t 0 items out)
    ∧ (∀ t, R tid = some (.sequence t) →
      encodeSeqTo R fuel len items tid out
        = encodeItemsLoop t 0 items (out ++ compactBytes (len % 2 ^ 32)))
    ∧ (∀ t, R tid = some (.tuple [t]) →
      encodeSeqTo R (fuel + 1) len items tid out
        = encodeSeqTo R fuel len items t out)
    ∧ (∀ f, R tid = some (.composite [f]) →
      encodeSeqTo R (fuel + 1) len items tid out
        = encodeSeqTo R fuel len items f.ty out)
    ∧ (∀ td, R tid = some td → seqOtherShape td →
      encodeSeqTo R fuel len items tid out
        = (Except.error (Error.new (.wrongShape .array tid)), out)) := by
  refine ⟨?_, ?_, ?_, ?_, ?_, ?_⟩
  · intro t alen hres hne
    simp only [encodeSeqTo, hres]
    rw [if_neg hne]
  · intro t hres
    simp [encodeSeqTo, hres]
  · intro t hres
    simp only [encodeSeqTo, hres]
  · intro t hres
    conv_lhs => rw [encodeSeqTo]
    rw [hres]
  · intro f hres
    conv_lhs => rw [encodeSeqTo]
    rw [hres]
  · intro td hres hshape
    cases td with
    | primitive p => simp only [encodeSeqTo, hres]
    | compact i => simp only [encodeSeqTo, hres]
    | array t l => exact hshape.elim
    | sequence t => exact hshape.elim
    | tuple ts =>
      cases ts with
      | nil => simp only [encodeSeqTo, hres]
      | cons a tl =>
        cases tl with
        | nil => exact hshape.elim
        | cons b tl2 => simp only [encodeSeqTo, hres]
    | composite fs =>
      cases fs with
      | nil => simp only [encodeSeqTo, hres]
      | cons a tl =>
        cases tl with
        | nil => exact hshape.elim
        | cons b tl2 => simp only [encodeSeqTo, hres]
    | variant vs => simp only [encodeSeqTo, hres]
    | bitSequence => simp only [encodeSeqTo, hres]

/-- A registry for the C6 witness: type 0 is `[u8; 2]`. -/
def Rseq : Resolver := fun t =>
  if t = 0 then some (.array 1 2)
  else if t = 1 then some (.primitive .u8) else none

/-- Witness for C6: three values against a fixed-length-2 array target
fail with `WrongLength(3, 2)`. -/
theorem sequence_encoding_witness :
    encodeSeqTo Rseq 1 3 [] 0 []
      = (Except.error (Error.new (.wrongLength 3 2)), []) :=
  (sequence_encoding Rseq 1 3 [] 0 []).1 1 2 rfl (by decide)

/-- A registry exhibiting the normalizer divergence: type 0 is the
length-1 array `[u8; 1]`, type 1 is `u8`. -/
def R7 : Resolver := fun t =>
  if t = 0 then some (.array 1 1)
  else if t = 1 then some (.primitive .u8) else none

/-- **C7** (evaluation at the failing input).  The claim — and the
normalizer's own doc comment, and the earlier in-repo implementation —
says an array of length exactly one is unwrapped to its element type,
but the current `find_single_entry_with_same_repr` has no array case and
returns the `[u8; 1]` id unchanged, while the earlier implementation
unwraps it to the `u8` id. -/
theorem normalizer_array_unwrap_divergence :
    findSingleEntryWithSameRepr R7 5 0 = 0
    ∧ findSingleEntryWithSameReprOld R7 5 0 = 1
    ∧ R7 0 = some (.array 1 1) := by
  decide

theorem findSingleEntry_succ_eq (R : Resolver) (f : Nat) (t : TypeId) :
    findSingleEntryWithSameRepr R (f + 1) t
      = match unwrapStep R t with
        | some u => findSingleEntryWithSameRepr R f u
        | none => t := by
  cases hRt : R t with
  | none => simp [findSingleEntryWithSameRepr, unwrapStep, hRt]
  | some td =>
    cases td with
    | tuple ts =>
      cases ts with
      | nil => simp [findSingleEntryWithSameRepr, unwrapStep, hRt]
      | cons a tl =>
        cases tl with
        | nil => simp [findSingleEntryWithSameRepr, unwrapStep, hRt]
        | cons b tl2 => simp [findSingleEntryWithSameRepr, unwrapStep, hRt]
    | composite fs =>
      cases fs with
      | nil => simp [findSingleEntryWithSameRepr, unwrapStep, hRt]
      | cons a tl =>
        cases tl with
        | nil => simp [findSingleEntryWithSameRepr, unwrapStep, hRt]
        | cons b tl2 => simp [findSingleEntryWithSameRepr, unwrapStep, hRt]
    | primitive p => simp [findSingleEntryWithSameRepr, unwrapStep, hRt]
    | compact i => simp [findSingleEntryWithSameRepr, unwrapStep, hRt]
    | array t l => simp [findSingleEntryWithSameRepr, unwrapStep, hRt]
    | sequence t => simp [findSingleEntryWithSameRepr, unwrapStep, hRt]
    | variant vs => simp [findSingleEntryWithSameRepr, unwrapStep, hRt]
    | bitSequence => simp [findSingleEntryWithSameRepr, unwrapStep, hRt]

theorem findSingleEntry_of_stuck (R : Resolver) {t : TypeId}
    (h : unwrapStep R t = none) :
    ∀ f, findSingleEntryWithSameRepr R f t = t := by
  intro f
  cases f with
  | zero => rfl
  | succ f => rw [findSingleEntry_succ_eq, h]

theorem findSingleEntry_stuck_of_measure (R : Resolver) (d : TypeId → Nat)
    (hd : ∀ u v, unwrapStep R u = some v → d v < d u) :
    ∀ (f : Nat) (t : TypeId), d t < f →
      unwrapStep R (findSingleEntryWithSameRepr R f t) = none := by
  intro f
  induction f with
  | zero => intro t h; omega
  | succ f ih =>
    intro t h
    rw [findSingleEntry_succ_eq]
    cases hstep : unwrapStep R t with
    | none => exact hstep
    | some u =>
      have hlt : d u < d t := hd t u hstep
      exact ih u (by omega)

/-- **C8.** Shape normalization is idempotent: over any registry whose
single-entry unwrap steps strictly decrease a depth measure (the
acyclicity the source assumes of its registry), and with fuel beyond the
input's depth, applying the normalizer to its own result returns the
same type id as applying it once. -/
theorem normalize_idempotent (R : Resolver) (d : TypeId → Nat)
    (t : TypeId) (f₁ f₂ : Nat)
    (hd : ∀ u v, unwrapStep R u = some v → d v < d u)
    (hf : d t < f₁) :
    findSingleEntryWithSameRepr R f₂ (findSingleEntryWithSameRepr R f₁ t)
      = findSingleEntryWithSameRepr R f₁ t :=
  findSingleEntry_of_stuck R
    (findSingleEntry_stuck_of_measure R d hd f₁ t hf) f₂

/-- A registry for the C8 witness: type 0 is the one-member tuple `(1,)`
and everything else is unregistered. -/
def R8 : Resolver := fun t => if t = 0 then some (.tuple [1]) else none

/-- A depth measure for `R8`. -/
def d8 : TypeId → Nat := fun t => if t = 0 then 1 else 0

/-- Witness for C8: normalizing the already-normalized type 0 of `R8`
changes nothing. -/
theorem normalize_idempotent_witness :
    findSingleEntryWithSameRepr R8 3 (findSingleEntryWithSameRepr R8 2 0)
      = findSingleEntryWithSameRepr R8 2 0 := by
  refine normalize_idempotent R8 d8 0 2 3 ?_ (by norm_num [d8])
  intro u v h
  by_cases hu : u = 0
  · subst hu
    have hv : v = 1 :=
      (Option.some_inj.mp (show some 1 = some v from h)).symm
    subst hv
    norm_num [d8]
  · exfalso
    simp [unwrapStep, R8, hu] at h

/-- A registry for C9: type 0 is the primitive `u64`. -/
def R9 : Resolver := fun t => if t = 0 then some (.primitive .u64) else none

/-- The integer value 123 as a source value (`123u64`). -/
def u64val : SubEnc := fun tid out => encodeNumberTo R9 4 123 tid out

/-- A one-field wrapper struct holding `value: 123u64`
(`Wrapper { value: 123 }` presented to the composite engine the way the
derive does). -/
def wrapperVal : SubEnc := fun tid out =>
  encodeCompositeTo R9 [⟨some "value", u64val⟩] tid out

/-- **C9.** Wrapper transparency: encoding the one-element tuple
`(Wrapper { value: 123 },)` against a bare `u64` target succeeds and
produces exactly the same bytes as encoding the bare `123u64` against
that target. -/
theorem wrapper_transparency :
    encodeCompositeTo R9 [⟨none, wrapperVal⟩] 0 []
      = encodeNumberTo R9 4 123 0 []
    ∧ (encodeCompositeTo R9 [⟨none, wrapperVal⟩] 0 []).1 = Except.ok ()
    ∧ (encodeCompositeTo R9 [⟨none, wrapperVal⟩] 0 []).2
        = [123, 0, 0, 0, 0, 0, 0, 0] := by
  refine ⟨rfl, rfl, rfl⟩

/-- A sub-encoder that only ever appends to the buffer it is given,
whether it succeeds or fails. -/
def SubAppendOnly (e : SubEnc) : Prop :=
  ∀ tid out, ∃ s, (e tid out).2 = out ++ s

theorem fst_mem_of_mem_zip {α β : Type} :
    ∀ {l₁ : List α} {l₂ : List β} {q : α × β}, q ∈ l₁.zip l₂ → q.1 ∈ l₁ := by
  intro l₁
  induction l₁ with
  | nil => intro l₂ q h; simp at h
  | cons a tl ih =>
    intro l₂ q h
    cases l₂ with
    | nil => simp at h
    | cons b tl₂ =>
      rw [List.zip_cons_cons] at h
      rcases List.mem_cons.mp h with rfl | h
      · simp
      · exact List.mem_cons.mpr (Or.inr (ih h))

theorem encodeItemsLoop_append (t : TypeId) :
    ∀ (items : List SubEnc), (∀ e ∈ items, SubAppendOnly e) →
      ∀ (idx : Nat) (out : Buf),
        ∃ s, (encodeItemsLoop t idx items out).2 = out ++ s := by
  intro items
  induction items with
  | nil => intro _ idx out; exact ⟨[], by simp [encodeItemsLoop]⟩
  | cons e es ih =>
    intro h idx out
    obtain ⟨s, hs⟩ := h e (by simp) t out
    cases hres : e t out with
    | mk r out' =>
      have hout' : out' = out ++ s := by rw [hres] at hs; exact hs
      cases r with
      | ok _ =>
        obtain ⟨s2, hs2⟩ := ih (fun x hx => h x (by simp [hx])) (idx + 1) out'
        refine ⟨s ++ s2, ?_⟩
        simp only [encodeItemsLoop, hres]
        rw [hs2, hout', List.append_assoc]
      | error err =>
        refine ⟨s, ?_⟩
        simp only [encodeItemsLoop, hres]
        exact hout'

theorem encodePositionalLoop_append :
    ∀ (ps : List (SrcEntry × TypeId)),
      (∀ q ∈ ps, SubAppendOnly q.1.enc) →
      ∀ (idx : Nat) (out : Buf),
        ∃ s, (encodePositionalLoop idx ps out).2 = out ++ s := by
  intro ps
  induction ps with
  | nil => intro _ idx out; exact ⟨[], by simp [encodePositionalLoop]⟩
  | cons q rest ih =>
    intro h idx out
    obtain ⟨s, hs⟩ := h q (by simp) q.2 out
    cases hres : q.1.enc q.2 out with
    | mk r out' =>
      have hout' : out' = out ++ s := by rw [hres] at hs; exact hs
      cases r with
      | ok _ =>
        obtain ⟨s2, hs2⟩ := ih (fun x hx => h x (by simp [hx])) (idx + 1) out'
        refine ⟨s ++ s2, ?_⟩
        simp only [encodePositionalLoop, hres]
        rw [hs2, hout', List.append_assoc]
      | error err =>
        refine ⟨s, ?_⟩
        simp only [encodePositionalLoop, hres]
        exact hout'

theorem encodeFieldsNamedLoop_append (entries : List SrcEntry)
    (h : ∀ e ∈ entries, SubAppendOnly e.enc) :
    ∀ (fields : List Field) (out : Buf),
      ∃ s, (encodeFieldsNamedLoop entries fields out).2 = out ++ s := by
  intro fields
  induction fields with
  | nil => intro out; exact ⟨[], by simp [encodeFieldsNamedLoop]⟩
  | cons f fs ih =>
    intro out
    cases hlk : lookupSource entries (fieldKey f) with
    | none => exact ⟨[], by simp [encodeFieldsNamedLoop, hlk]⟩
    | some e =>
      obtain ⟨hmem, _⟩ := lookupSource_mem hlk
      obtain ⟨s, hs⟩ := h e hmem f.ty out
      cases hres : e.enc f.ty out with
      | mk r out' =>
        have hout' : out' = out ++ s := by rw [hres] at hs; exact hs
        cases r with
        | ok _ =>
          obtain ⟨s2, hs2⟩ := ih out'
          refine ⟨s ++ s2, ?_⟩
          simp only [encodeFieldsNamedLoop, hlk, hres]
          rw [hs2, hout', List.append_assoc]
        | error err =>
          refine ⟨s, ?_⟩
          simp only [encodeFieldsNamedLoop, hlk, hres]
          exact hout'

theorem encodeFieldsTo_append (entries : List SrcEntry)
    (fields : List Field) (tid : TypeId) (out : Buf)
    (h : ∀ e ∈ entries, SubAppendOnly e.enc) :
    ∃ s, (encodeFieldsTo entries fields tid out).2 = out ++ s := by
  unfold encodeFieldsTo
  cases hcond : ((fields.any fun f => f.name.isSome)
      && (entries.any fun e => e.name.isSome)) with
  | true =>
    rw [if_pos hcond]
    exact encodeFieldsNamedLoop_append entries h fields out
  | false =>
    rw [if_neg (by simp [hcond])]
    unfold encodeFieldsPositional
    by_cases hlen : fields.length ≠ entries.length
    · rw [if_pos hlen]
      exact ⟨[], by simp⟩
    · rw [if_neg hlen]
      exact encodePositionalLoop_append (entries.zip (fields.map Field.ty))
        (fun q hq => h q.1 (fst_mem_of_mem_zip hq)) 0 out

theorem encodeCompositeFallback_append (entries : List SrcEntry)
    (tid : TypeId) (out : Buf)
    (h : ∀ e ∈ entries, SubAppendOnly e.enc) :
    ∃ s, (encodeCompositeFallback entries tid out).2 = out ++ s := by
  match entries with
  | [] => exact ⟨[], by simp [encodeCompositeFallback]⟩
  | [e] =>
    obtain ⟨s, hs⟩ := h e (by simp) tid out
    cases hres : e.enc tid out with
    | mk r out' =>
      have hout' : out' = out ++ s := by rw [hres] at hs; exact hs
      cases r with
      | ok _ => exact ⟨s, by simp only [encodeCompositeFallback, hres]; exact hout'⟩
      | error err =>
        exact ⟨s, by simp only [encodeCompositeFallback, hres]; exact hout'⟩
  | e1 :: e2 :: rest => exact ⟨[], by simp [encodeCompositeFallback]⟩

theorem encodeCompositeTo_append (R : Resolver) (entries : List SrcEntry)
    (tid : TypeId) (out : Buf)
    (h : ∀ e ∈ entries, SubAppendOnly e.enc) :
    ∃ s, (encodeCompositeTo R entries tid out).2 = out ++ s := by
  have hfb := encodeCompositeFallback_append entries tid out h
  cases hres : R tid with
  | none => exact ⟨[], by simp [encodeCompositeTo, hres]⟩
  | some td =>
    cases td with
    | tuple ts =>
      by_cases hl : ts.length = entries.length
      · obtain ⟨s, hs⟩ := encodePositionalLoop_append (entries.zip ts)
          (fun q hq => h q.1 (fst_mem_of_mem_zip hq)) 0 out
        exact ⟨s, by simp only [encodeCompositeTo, hres]; rw [if_pos hl]; exact hs⟩
      · obtain ⟨s, hs⟩ := hfb
        exact ⟨s, by simp only [encodeCompositeTo, hres]; rw [if_neg hl]; exact hs⟩
    | array t len =>
      by_cases hl : len = entries.length
      · obtain ⟨s, hs⟩ := encodePositionalLoop_append
          (entries.zip (entries.map fun _ => t))
          (fun q hq => h q.1 (fst_mem_of_mem_zip hq)) 0 out
        exact ⟨s, by simp only [encodeCompositeTo, hres]; rw [if_pos hl]; exact hs⟩
      · obtain ⟨s, hs⟩ := hfb
        exact ⟨s, by simp only [encodeCompositeTo, hres]; rw [if_neg hl]; exact hs⟩
    | sequence t =>
      obtain ⟨s, hs⟩ :=
        encodePositionalLoop_append (entries.zip (entries.map fun _ => t))
          (fun q hq => h q.1 (fst_mem_of_mem_zip hq)) 0
          (out ++ compactBytes (entries.length % 2 ^ 32))
      exact ⟨compactBytes (entries.length % 2 ^ 32) ++ s, by
        simp only [encodeCompositeTo, hres]
        rw [hs, List.append_assoc]⟩
    | composite fields =>
      by_cases hl : fields.length = entries.length
      · obtain ⟨s, hs⟩ := encodeFieldsTo_append entries fields tid out h
        exact ⟨s, by simp only [encodeCompositeTo, hres]; rw [if_pos hl]; exact hs⟩
      · obtain ⟨s, hs⟩ := hfb
        exact ⟨s, by simp only [encodeCompositeTo, hres]; rw [if_neg hl]; exact hs⟩
    | primitive p =>
      obtain ⟨s, hs⟩ := hfb
      exact ⟨s, by simp only [encodeCompositeTo, hres]; exact hs⟩
    | compact i =>
      obtain ⟨s, hs⟩ := hfb
      exact ⟨s, by simp only [encodeCompositeTo, hres]; exact hs⟩
    | variant vs =>
      obtain ⟨s, hs⟩ := hfb
      exact ⟨s, by simp only [encodeCompositeTo, hres]; exact hs⟩
    | bitSequence =>
      obtain ⟨s, hs⟩ := hfb
      exact ⟨s, by simp only [encodeCompositeTo, hres]; exact hs⟩

theorem encodeVariantTo_append (R : Resolver) (fuel : Nat) (name : String)
    (entries : List SrcEntry) (tid : TypeId) (out : Buf)
    (h : ∀ e ∈ entries, SubAppendOnly e.enc) :
    ∃ s, (encodeVariantTo R fuel name entries tid out).2 = out ++ s := by
  cases hres : R (findSingleEntryWithSameRepr R fuel tid) with
  | none => exact ⟨[], by simp [encodeVariantTo, hres]⟩
  | some td =>
    cases td with
    | variant vars =>
      cases hfind : vars.find? (fun v => v.name == name) with
      | none => exact ⟨[], by simp [encodeVariantTo, hres, hfind]⟩
      | some v =>
        obtain ⟨s, hs⟩ := encodeFieldsTo_append entries v.fields
          (findSingleEntryWithSameRepr R fuel tid)
          (out ++ leBytes 1 v.index) h
        exact ⟨leBytes 1 v.index ++ s, by
          simp only [encodeVariantTo, hres, hfind]
          rw [hs, List.append_assoc]⟩
    | primitive p => exact ⟨[], by simp [encodeVariantTo, hres]⟩
    | compact i => exact ⟨[], by simp [encodeVariantTo, hres]⟩
    | tuple ts => exact ⟨[], by simp [encodeVariantTo, hres]⟩
    | array t l => exact ⟨[], by simp [encodeVariantTo, hres]⟩
    | sequence t => exact ⟨[], by simp [encodeVariantTo, hres]⟩
    | composite fs => exact ⟨[], by simp [encodeVariantTo, hres]⟩
    | bitSequence => exact ⟨[], by simp [encodeVariantTo, hres]⟩

theorem encodeNumberTo_append (R : Resolver) (fuel : Nat) (v : Int)
    (tid : TypeId) (out : Buf) :
    ∃ s, (encodeNumberTo R fuel v tid out).2 = out ++ s := by
  cases hres : R (findSingleEntryWithSameRepr R fuel tid) with
  | none => exact ⟨[], by simp [encodeNumberTo, hres]⟩
  | some td =>
    cases td with
    | primitive p =>
      cases hw : numWidth p with
      | none => exact ⟨[], by simp [encodeNumberTo, hres, hw]⟩
      | some sw =>
        cases hfits : intFits sw.1 sw.2 v with
        | true =>
          exact ⟨encodeIntLE sw.2 v, by
            simp [encodeNumberTo, hres, hw, hfits]⟩
        | false =>
          exact ⟨[], by simp [encodeNumberTo, hres, hw, hfits]⟩
    | compact inner =>
      cases hinner : R (findSingleEntryWithSameRepr R fuel inner) with
      | none => exact ⟨[], by simp [encodeNumberTo, hres, hinner]⟩
      | some td2 =>
        cases td2 with
        | primitive p =>
          cases hw : unsignedWidth p with
          | none => exact ⟨[], by simp [encodeNumberTo, hres, hinner, hw]⟩
          | some w =>
            cases hfits : intFits false w v with
            | true =>
              exact ⟨compactBytes v.toNat, by
                simp [encodeNumberTo, hres, hinner, hw, hfits]⟩
            | false =>
              exact ⟨[], by simp [encodeNumberTo, hres, hinner, hw, hfits]⟩
        | compact i2 => exact ⟨[], by simp [encodeNumberTo, hres, hinner]⟩
        | tuple ts => exact ⟨[], by simp [encodeNumberTo, hres, hinner]⟩
        | array t l => exact ⟨[], by simp [encodeNumberTo, hres, hinner]⟩
        | sequence t => exact ⟨[], by simp [encodeNumberTo, hres, hinner]⟩
        | composite fs => exact ⟨[], by simp [encodeNumberTo, hres, hinner]⟩
        | variant vs => exact ⟨[], by simp [encodeNumberTo, hres, hinner]⟩
        | bitSequence => exact ⟨[], by simp [encodeNumberTo, hres, hinner]⟩
    | tuple ts => exact ⟨[], by simp [encodeNumberTo, hres]⟩
    | array t l => exact ⟨[], by simp [encodeNumberTo, hres]⟩
    | sequence t => exact ⟨[], by simp [encodeNumberTo, hres]⟩
    | composite fs => exact ⟨[], by simp [encodeNumberTo, hres]⟩
    | variant vs => exact ⟨[], by simp [encodeNumberTo, hres]⟩
    | bitSequence => exact ⟨[], by simp [encodeNumberTo, hres]⟩

theorem encodeSeqTo_append (R : Resolver) :
    ∀ (fuel len : Nat) (items : List SubEnc) (tid : TypeId) (out : Buf),
      (∀ e ∈ items, SubAppendOnly e) →
      ∃ s, (encodeSeqTo R fuel len items tid out).2 = out ++ s := by
  intro fuel
  induction fuel with
  | zero =>
    intro len items tid out h
    cases hres : R tid with
    | none => exact ⟨[], by simp [encodeSeqTo, hres]⟩
    | some td =>
      cases td with
      | array t alen =>
        by_cases hl : alen = len
        · obtain ⟨s, hs⟩ := encodeItemsLoop_append t items h 0 out
          exact ⟨s, by simp only [encodeSeqTo, hres]; rw [if_pos hl]; exact hs⟩
        · exact ⟨[], by simp only [encodeSeqTo, hres]; rw [if_neg hl]; simp⟩
      | sequence t =>
        obtain ⟨s, hs⟩ := encodeItemsLoop_append t items h 0
          (out ++ compactBytes (len % 2 ^ 32))
        exact ⟨compactBytes (len % 2 ^ 32) ++ s, by
          simp only [encodeSeqTo, hres]
          rw [hs, List.append_assoc]⟩
      | tuple ts =>
        match ts with
        | [] => exact ⟨[], by simp [encodeSeqTo, hres]⟩
        | [t] =>
          refine ⟨[], ?_⟩
          conv_lhs =>
            rw [encodeSeqTo]
            rw [hres]
          simp
        | t1 :: t2 :: rest => exact ⟨[], by simp [encodeSeqTo, hres]⟩
      | composite fs =>
        match fs with
        | [] => exact ⟨[], by simp [encodeSeqTo, hres]⟩
        | [f] =>
          refine ⟨[], ?_⟩
          conv_lhs =>
            rw [encodeSeqTo]
            rw [hres]
          simp
        | f1 :: f2 :: rest => exact ⟨[], by simp [encodeSeqTo, hres]⟩
      | primitive p => exact ⟨[], by simp [encodeSeqTo, hres]⟩
      | compact i => exact ⟨[], by simp [encodeSeqTo, hres]⟩
      | variant vs => exact ⟨[], by simp [encodeSeqTo, hres]⟩
      | bitSequence => exact ⟨[], by simp [encodeSeqTo, hres]⟩
  | succ fuel ih =>
    intro len items tid out h
    cases hres : R tid with
    | none => exact ⟨[], by simp [encodeSeqTo, hres]⟩
    | some td =>
      cases td with
      | array t alen =>
        by_cases hl : alen = len
        · obtain ⟨s, hs⟩ := encodeItemsLoop_append t items h 0 out
          exact ⟨s, by simp only [encodeSeqTo, hres]; rw [if_pos hl]; exact hs⟩
        · exact ⟨[], by simp only [encodeSeqTo, hres]; rw [if_neg hl]; simp⟩
      | sequence t =>
        obtain ⟨s, hs⟩ := encodeItemsLoop_append t items h 0
          (out ++ compactBytes (len % 2 ^ 32))
        exact ⟨compactBytes (len % 2 ^ 32) ++ s, by
          simp only [encodeSeqTo, hres]
          rw [hs, List.append_assoc]⟩
      | tuple ts =>
        match ts with
        | [] => exact ⟨[], by simp [encodeSeqTo, hres]⟩
        | [t] =>
          obtain ⟨s, hs⟩ := ih len items t out h
          exact ⟨s, by conv_lhs => rw [encodeSeqTo]; rw [hres]; exact hs⟩
        | t1 :: t2 :: rest => exact ⟨[], by simp [encodeSeqTo, hres]⟩
      | composite fs =>
        match fs with
        | [] => exact ⟨[], by simp [encodeSeqTo, hres]⟩
        | [f] =>
          obtain ⟨s, hs⟩ := ih len items f.ty out h
          exact ⟨s, by conv_lhs => rw [encodeSeqTo]; rw [hres]; exact hs⟩
        | f1 :: f2 :: rest => exact ⟨[], by simp [encodeSeqTo, hres]⟩
      | primitive p => exact ⟨[], by simp [encodeSeqTo, hres]⟩
      | compact i => exact ⟨[], by simp [encodeSeqTo, hres]⟩
      | variant vs => exact ⟨[], by simp [encodeSeqTo, hres]⟩
      | bitSequence => exact ⟨[], by simp [encodeSeqTo, hres]⟩

/-- A registry for the C10 error-case conjunct: type 0 is `Vec<bool>`,
type 1 is `bool`. -/
def RseqErr : Resolver := fun t =>
  if t = 0 then some (.sequence 1)
  else if t = 1 then some (.primitive .bool) else none

/-- **C10.** Every `encode_*_to` operation treats the output buffer as
append-only: given sub-encoders that only append, the bytes in the
buffer before the call remain an unchanged prefix of the buffer after
the call, whether the call returns `Ok` or `Err`; however, a call that
returns `Err` may already have appended bytes — encoding a sequence
whose element fails still writes the compact length prefix first. -/
theorem buffer_append_only :
    (∀ (R : Resolver) (fuel len : Nat) (items : List SubEnc)
        (tid : TypeId) (out : Buf),
      (∀ e ∈ items, SubAppendOnly e) →
      ∃ s, (encodeSeqTo R fuel len items tid out).2 = out ++ s)
    ∧ (∀ (R : Resolver) (fuel : Nat) (name : String)
        (entries : List SrcEntry) (tid : TypeId) (out : Buf),
      (∀ e ∈ entries, SubAppendOnly e.enc) →
      ∃ s, (encodeVariantTo R fuel name entries tid out).2 = out ++ s)
    ∧ (∀ (R : Resolver) (entries : List SrcEntry) (tid : TypeId) (out : Buf),
      (∀ e ∈ entries, SubAppendOnly e.enc) →
      ∃ s, (encodeCompositeTo R entries tid out).2 = out ++ s)
    ∧ (∀ (entries : List SrcEntry) (fields : List Field)
        (tid : TypeId) (out : Buf),
      (∀ e ∈ entries, SubAppendOnly e.enc) →
      ∃ s, (encodeFieldsTo entries fields tid out).2 = out ++ s)
    ∧ (∀ (R : Resolver) (fuel : Nat) (v : Int) (tid : TypeId) (out : Buf),
      ∃ s, (encodeNumberTo R fuel v tid out).2 = out ++ s)
    ∧ encodeSeqTo RseqErr 1 1 [subFail] 0 []
        = (Except.error ((Error.new (.wrongShape .bool 1)).atIdx 0), [4]) := by
  refine ⟨?_, ?_, ?_, ?_, ?_, rfl⟩
  · intro R fuel len items tid out h
    exact encodeSeqTo_append R fuel len items tid out h
  · intro R fuel name entries tid out h
    exact encodeVariantTo_append R fuel name entries tid out h
  · intro R entries tid out h
    exact encodeCompositeTo_append R entries tid out h
  · intro entries fields tid out h
    exact encodeFieldsTo_append entries fields tid out h
  · intro R fuel v tid out
    exact encodeNumberTo_append R fuel v tid out

/-- Witness for C10: a concrete sequence encode whose single element
appends one byte only ever appends to the (empty) starting buffer. -/
theorem buffer_append_only_witness :
    ∃ s, (encodeSeqTo RseqErr 1 1 [subByte 7] 0 []).2 = [] ++ s :=
  buffer_append_only.1 RseqErr 1 1 [subByte 7] 0 []
    (by
      intro e he
      rcases List.mem_cons.mp he with rfl | he
      · exact fun tid out => ⟨[7], rfl⟩
      · cases he)

end ScaleEncode
